import Mathlib

/-!
# Verification of the flood-control sliding-window rate limiter

Shallow embedding of `src/main.go` (package `main`): the `FloodControlImpl`
type, its constructor `NewFloodControl`, and the `Check` method.

Modelling choices, each tied to a line of the source:

* Timestamps and durations are integers (`Int`), standing for Go's
  nanosecond counts; `now.Sub(value) <= fc.timeInterval` becomes
  `now - value ≤ timeInterval`.
* The Go `container/list` stores `interface{}` values, and `Check`
  type-asserts each front element to `time.Time`, returning the error
  "в очереди хранится не время" when the assertion fails.  We keep that
  weak typing: a list element is a `GoValue`, either `time t` or `junk`,
  so the corrupt-entry branch is representable and its unreachability
  can be proved rather than assumed.
* `fc.requests` is `map[int64]*list.List`; we model it as
  `Int → Option (List GoValue)` (`none` = key absent).  The Go map holds
  a *pointer* to the list, so the in-place mutations done by the eviction
  loop persist in the map even when `Check` returns early (rejection or
  the corrupt-entry error) — but only when the key was already present;
  a fresh `list.New()` that is never stored is simply dropped.
  `storeBack` captures exactly this aliasing.
* The mutex and `context.Context` play no role in the sequential
  semantics of a single call and are omitted.
-/

/-- A value held in a `container/list` node: Go's `interface{}`.  The code
only ever pushes `time.Time` values, but the container also admits anything
else, collapsed here into `junk`. -/
inductive GoValue where
  | time (t : Int) : GoValue
  | junk : GoValue
deriving DecidableEq, Repr

/-- The two errors `Check` can construct: "в очереди хранится не время"
(a non-time value in the queue) and "превышено максимальное количество
запросов" (rate limit exceeded). -/
inductive CheckError where
  | notATime : CheckError
  | limitExceeded : CheckError
deriving DecidableEq, Repr

/-- The limiter state (`FloodControlImpl` in the source): the per-key
request log, the window `timeInterval`, and the capacity `maxRequests`.
The mutex field is omitted (single-call sequential semantics). -/
structure FloodControlImpl where
  requests : Int → Option (List GoValue)
  timeInterval : Int
  maxRequests : Int

/-- `NewFloodControl`: empty request map, given window and capacity. -/
def NewFloodControl (timeInterval : Int) (maxRequests : Int) : FloodControlImpl :=
  { requests := fun _ => none, timeInterval := timeInterval, maxRequests := maxRequests }

/-- The eviction loop of `Check` (lines 48–59): walk from the front,
type-assert each node, stop at the first entry with `now - t ≤ window`,
removing the stale entries walked over.  Returns the error (if a non-time
value was hit) together with the list as it stands when the loop exits:
entries removed before an early error stay removed. -/
def evictFront (now window : Int) : List GoValue → Option CheckError × List GoValue
  | [] => (none, [])
  | GoValue.junk :: rest => (some CheckError.notATime, GoValue.junk :: rest)
  | GoValue.time t :: rest =>
      if now - t ≤ window then (none, GoValue.time t :: rest)
      else evictFront now window rest

/-- The same eviction loop specialised to a list of timestamps (the only
lists the program ever builds): drop from the front while `now - t > window`. -/
def evictTimes (now window : Int) : List Int → List Int
  | [] => []
  | t :: rest =>
      if now - t ≤ window then t :: rest
      else evictTimes now window rest

/-- Modelled from the spec ("removing every stale entry from the whole
log"): keep exactly the entries with `now - t ≤ window`, wherever they sit.
This is the specification-side eviction that claim C7 compares against the
front-stopping loop of the code. -/
def evictAllStale (now window : Int) (ts : List Int) : List Int :=
  ts.filter (fun t => decide (now - t ≤ window))

/-- Writing the mutated list back through the Go map's pointer: the
eviction loop mutates the list in place, so if the key was present, the
map now sees the mutated list even though `fc.requests[userID] = …` was
never executed; if the key was absent, the fresh local list is dropped. -/
def storeBack (m : Int → Option (List GoValue)) (k : Int) (l : List GoValue) :
    Int → Option (List GoValue) :=
  fun k2 => if k2 = k then (m k).map (fun _ => l) else m k2

/-- Result of one `Check` call: the returned `(bool, error)` pair plus the
limiter state after the call. -/
structure CheckResult where
  admitted : Bool
  err : Option CheckError
  state : FloodControlImpl

/-- `Check` (lines 36–71): fetch the key's log (empty if absent), evict
stale entries from the front, reject when the post-eviction length reaches
`maxRequests`, otherwise append `now` and store the log under the key. -/
def Check (fc : FloodControlImpl) (userID : Int) (now : Int) : CheckResult :=
  let requestTimes := (fc.requests userID).getD []
  let ev := evictFront now fc.timeInterval requestTimes
  match ev.1 with
  | some e =>
      { admitted := false, err := some e,
        state := { fc with requests := storeBack fc.requests userID ev.2 } }
  | none =>
      if fc.maxRequests ≤ (ev.2.length : Int) then
        { admitted := false, err := some CheckError.limitExceeded,
          state := { fc with requests := storeBack fc.requests userID ev.2 } }
      else
        { admitted := true, err := none,
          state := { fc with requests := fun k =>
            if k = userID then some (ev.2 ++ [GoValue.time now]) else fc.requests k } }

/-- Run a sequence of `Check` calls, each given as `(userID, now)`;
collect the returned booleans and the final state. -/
def runChecks (fc : FloodControlImpl) : List (Int × Int) → List Bool × FloodControlImpl
  | [] => ([], fc)
  | (uid, now) :: rest =>
      let r := Check fc uid now
      let p := runChecks r.state rest
      (r.admitted :: p.1, p.2)

/-- Reachability with a monotone clock: `ReachableAt window limit fc t`
holds when `fc` arises from `NewFloodControl window limit` by a sequence
of `Check` calls whose clock readings are non-decreasing, the last reading
being at most `t`. -/
inductive ReachableAt (window limit : Int) : FloodControlImpl → Int → Prop where
  | init (t0 : Int) : ReachableAt window limit (NewFloodControl window limit) t0
  | step {fc : FloodControlImpl} {t : Int} (uid now : Int) :
      ReachableAt window limit fc t → t ≤ now →
      ReachableAt window limit (Check fc uid now).state now

/-- The per-log invariant: the list is made of timestamps only, is
chronologically non-decreasing, is bounded by the last clock reading, and
has at most `max limit 0` entries. -/
def LogOk (lastNow limit : Int) (L : List GoValue) : Prop :=
  ∃ ts : List Int, L = ts.map GoValue.time ∧ List.Sorted (fun a b => a ≤ b) ts ∧
    (∀ x ∈ ts, x ≤ lastNow) ∧ (ts.length : Int) ≤ max limit 0

/-- The full state invariant carried along `ReachableAt`. -/
def StateOk (window limit lastNow : Int) (fc : FloodControlImpl) : Prop :=
  fc.timeInterval = window ∧ fc.maxRequests = limit ∧
    ∀ uid L, fc.requests uid = some L → LogOk lastNow limit L

/-! ## Basic lemmas about the eviction loop -/

theorem evictFront_map_time (now w : Int) (ts : List Int) :
    evictFront now w (ts.map GoValue.time)
      = (none, (evictTimes now w ts).map GoValue.time) := by
  induction ts with
  | nil => rfl
  | cons t rest ih =>
      by_cases h : now - t ≤ w
      · simp [evictFront, evictTimes, h]
      · simp [evictFront, evictTimes, h, ih]

theorem evictTimes_suffix (now w : Int) (ts : List Int) :
    evictTimes now w ts <:+ ts := by
  induction ts with
  | nil => exact List.suffix_rfl
  | cons t rest ih =>
      by_cases h : now - t ≤ w
      · simp [evictTimes, h]
      · simp only [evictTimes, if_neg h]
        exact ih.trans (List.suffix_cons t rest)

theorem evictTimes_sublist (now w : Int) (ts : List Int) :
    (evictTimes now w ts).Sublist ts :=
  (evictTimes_suffix now w ts).sublist

theorem evictTimes_eq_filter (now w : Int) {ts : List Int}
    (hs : List.Sorted (fun a b => a ≤ b) ts) :
    evictTimes now w ts = evictAllStale now w ts := by
  induction ts with
  | nil => rfl
  | cons t rest ih =>
      rw [List.sorted_cons] at hs
      unfold evictTimes evictAllStale
      by_cases h : now - t ≤ w
      · rw [if_pos h, List.filter_cons, if_pos (by simpa using h)]
        congr 1
        symm
        rw [List.filter_eq_self]
        intro a ha
        have hta : t ≤ a := hs.1 a ha
        simp only [decide_eq_true_iff]
        omega
      · rw [if_neg h, List.filter_cons, if_neg (by simpa using h)]
        exact ih hs.2

theorem mem_evictTimes {now w : Int} {ts : List Int}
    (hs : List.Sorted (fun a b => a ≤ b) ts) (x : Int) :
    x ∈ evictTimes now w ts ↔ x ∈ ts ∧ now - x ≤ w := by
  rw [evictTimes_eq_filter now w hs, evictAllStale, List.mem_filter,
    decide_eq_true_iff]

theorem sorted_append_singleton {ts : List Int} {x : Int}
    (hs : List.Sorted (fun a b => a ≤ b) ts) (hb : ∀ y ∈ ts, y ≤ x) :
    List.Sorted (fun a b => a ≤ b) (ts ++ [x]) := by
  have : List.Pairwise (fun a b => a ≤ b) (ts ++ [x]) := by
    rw [List.pairwise_append]
    refine ⟨hs, List.pairwise_singleton _ _, ?_⟩
    intro a ha b hbmem
    have : b = x := by simpa using hbmem
    subst this
    exact hb a ha
  exact this

/-- Reduction of `Check` on a log made of timestamps (the hypothesis covers
an absent key via `ts = []`): the corrupt-entry branch vanishes and the two
remaining branches are decided by the post-eviction length. -/
theorem check_eq (fc : FloodControlImpl) (uid now : Int) (ts : List Int)
    (h : (fc.requests uid).getD [] = ts.map GoValue.time) :
    Check fc uid now =
      if fc.maxRequests ≤ ((evictTimes now fc.timeInterval ts).length : Int) then
        { admitted := false, err := some CheckError.limitExceeded,
          state := { fc with requests := (storeBack fc.requests uid
            ((evictTimes now fc.timeInterval ts).map GoValue.time)) } }
      else
        { admitted := true, err := none,
          state := { fc with requests := (fun k =>
            if k = uid then
              some ((evictTimes now fc.timeInterval ts).map GoValue.time
                ++ [GoValue.time now])
            else fc.requests k) } } := by
  unfold Check
  rw [h]
  simp only [evictFront_map_time, List.length_map]

/-! ## The state invariant along reachable states -/

theorem storeBack_same (m : Int → Option (List GoValue)) (k : Int) (l : List GoValue) :
    storeBack m k l k = (m k).map (fun _ => l) := by
  unfold storeBack
  rw [if_pos rfl]

theorem storeBack_other (m : Int → Option (List GoValue)) (k k2 : Int)
    (l : List GoValue) (h : k2 ≠ k) :
    storeBack m k l k2 = m k2 := by
  unfold storeBack
  rw [if_neg h]

theorem logOk_mono {t1 t2 limit : Int} {L : List GoValue} (h12 : t1 ≤ t2)
    (hL : LogOk t1 limit L) : LogOk t2 limit L := by
  obtain ⟨ts, hts, hsort, hbnd, hlen⟩ := hL
  exact ⟨ts, hts, hsort, fun x hx => le_trans (hbnd x hx) h12, hlen⟩

theorem stateOk_init (window limit t0 : Int) :
    StateOk window limit t0 (NewFloodControl window limit) := by
  refine ⟨rfl, rfl, ?_⟩
  intro uid L hL
  simp [NewFloodControl] at hL

theorem stateOk_log {window limit t : Int} {fc : FloodControlImpl}
    (h : StateOk window limit t fc) (uid : Int) :
    ∃ ts : List Int, (fc.requests uid).getD [] = ts.map GoValue.time ∧
      List.Sorted (fun a b => a ≤ b) ts ∧ (∀ x ∈ ts, x ≤ t) ∧
      (ts.length : Int) ≤ max limit 0 := by
  cases hfc : fc.requests uid with
  | none => exact ⟨[], by simp, by simp, by simp, by simp⟩
  | some L =>
      obtain ⟨ts, hts, hsort, hbnd, hlen⟩ := h.2.2 uid L hfc
      exact ⟨ts, by simp [hts], hsort, hbnd, hlen⟩

theorem stateOk_step {window limit t : Int} {fc : FloodControlImpl}
    (h : StateOk window limit t fc) (uid now : Int) (hle : t ≤ now) :
    StateOk window limit now (Check fc uid now).state := by
  obtain ⟨ts, hts, hsort, hbnd, hlen⟩ := stateOk_log h uid
  obtain ⟨hwin, hlim, hlogs⟩ := h
  rw [check_eq fc uid now ts hts]
  have hsub : (evictTimes now fc.timeInterval ts).Sublist ts :=
    evictTimes_sublist now fc.timeInterval ts
  have hsort2 : List.Sorted (fun a b => a ≤ b) (evictTimes now fc.timeInterval ts) :=
    List.Pairwise.sublist hsub hsort
  have hbnd2 : ∀ x ∈ evictTimes now fc.timeInterval ts, x ≤ now :=
    fun x hx => le_trans (hbnd x (hsub.subset hx)) hle
  have hlen2 : ((evictTimes now fc.timeInterval ts).length : Int) ≤ max limit 0 :=
    le_trans (by exact_mod_cast hsub.length_le) hlen
  by_cases hfull : fc.maxRequests ≤ ((evictTimes now fc.timeInterval ts).length : Int)
  · rw [if_pos hfull]
    refine ⟨hwin, hlim, ?_⟩
    intro uid2 L2 hL2
    replace hL2 : storeBack fc.requests uid
        ((evictTimes now fc.timeInterval ts).map GoValue.time) uid2 = some L2 := hL2
    by_cases he : uid2 = uid
    · subst he
      rw [storeBack_same] at hL2
      cases hfc : fc.requests uid2 with
      | none => rw [hfc] at hL2; simp at hL2
      | some L0 =>
          rw [hfc] at hL2
          simp only [Option.map_some', Option.some.injEq] at hL2
          exact ⟨evictTimes now fc.timeInterval ts, hL2.symm, hsort2, hbnd2, hlen2⟩
    · rw [storeBack_other _ _ _ _ he] at hL2
      exact logOk_mono hle (hlogs uid2 L2 hL2)
  · rw [if_neg hfull]
    refine ⟨hwin, hlim, ?_⟩
    intro uid2 L2 hL2
    replace hL2 : (if uid2 = uid then
        some ((evictTimes now fc.timeInterval ts).map GoValue.time ++ [GoValue.time now])
        else fc.requests uid2) = some L2 := hL2
    by_cases he : uid2 = uid
    · rw [if_pos he, Option.some.injEq] at hL2
      refine ⟨evictTimes now fc.timeInterval ts ++ [now], ?_, ?_, ?_, ?_⟩
      · rw [← hL2, List.map_append]
        rfl
      · exact sorted_append_singleton hsort2 hbnd2
      · intro x hx
        rcases List.mem_append.mp hx with hx1 | hx2
        · exact hbnd2 x hx1
        · have : x = now := by simpa using hx2
          omega
      · rw [hlim] at hfull
        have hc : ((evictTimes now fc.timeInterval ts).length : Int) < limit := by omega
        simp only [List.length_append, List.length_cons, List.length_nil]
        push_cast
        omega
    · rw [if_neg he] at hL2
      exact logOk_mono hle (hlogs uid2 L2 hL2)

theorem reachable_invariant {window limit : Int} {fc : FloodControlImpl} {t : Int}
    (h : ReachableAt window limit fc t) : StateOk window limit t fc := by
  induction h with
  | init t0 => exact stateOk_init window limit t0
  | step uid now hr hle ih => exact stateOk_step ih uid now hle

/-! ## Localisation: a `Check` call only looks at and only touches its key -/

/-- The action of one `Check` call on the checked key's own log entry:
returned boolean, returned error, and the log stored under the key
afterwards.  `Check` is `checkLog` applied at the key (see
`check_localize`), every other key being left alone
(`check_requests_other`). -/
def checkLog (window limit now : Int) (log : Option (List GoValue)) :
    Bool × Option CheckError × Option (List GoValue) :=
  let requestTimes := log.getD []
  let ev := evictFront now window requestTimes
  match ev.1 with
  | some e => (false, some e, log.map (fun _ => ev.2))
  | none =>
      if limit ≤ (ev.2.length : Int) then
        (false, some CheckError.limitExceeded, log.map (fun _ => ev.2))
      else
        (true, none, some (ev.2 ++ [GoValue.time now]))

theorem check_requests_frame (fc : FloodControlImpl) (uid now k : Int) (hk : k ≠ uid) :
    (Check fc uid now).state.requests k = fc.requests k := by
  simp only [Check]
  split
  · exact storeBack_other _ _ _ _ hk
  · split
    · exact storeBack_other _ _ _ _ hk
    · show (if k = uid then _ else fc.requests k) = fc.requests k
      rw [if_neg hk]

theorem check_fields (fc : FloodControlImpl) (uid now : Int) :
    (Check fc uid now).state.timeInterval = fc.timeInterval ∧
    (Check fc uid now).state.maxRequests = fc.maxRequests := by
  simp only [Check]
  split
  · exact ⟨rfl, rfl⟩
  · split
    · exact ⟨rfl, rfl⟩
    · exact ⟨rfl, rfl⟩

theorem check_localize (fc : FloodControlImpl) (uid now : Int) :
    (Check fc uid now).admitted
      = (checkLog fc.timeInterval fc.maxRequests now (fc.requests uid)).1 ∧
    (Check fc uid now).err
      = (checkLog fc.timeInterval fc.maxRequests now (fc.requests uid)).2.1 ∧
    (Check fc uid now).state.requests uid
      = (checkLog fc.timeInterval fc.maxRequests now (fc.requests uid)).2.2 := by
  simp only [Check, checkLog]
  split
  · exact ⟨rfl, rfl, storeBack_same _ _ _⟩
  · split
    · exact ⟨rfl, rfl, storeBack_same _ _ _⟩
    · refine ⟨rfl, rfl, ?_⟩
      show (if uid = uid then _ else _) = _
      rw [if_pos rfl]

theorem runChecks_frame (k : Int) (ms : List (Int × Int)) (fc : FloodControlImpl)
    (hk : ∀ p ∈ ms, p.1 ≠ k) :
    (runChecks fc ms).2.requests k = fc.requests k ∧
    (runChecks fc ms).2.timeInterval = fc.timeInterval ∧
    (runChecks fc ms).2.maxRequests = fc.maxRequests := by
  induction ms generalizing fc with
  | nil => exact ⟨rfl, rfl, rfl⟩
  | cons p rest ih =>
      obtain ⟨uid, n⟩ := p
      have h1 : uid ≠ k := hk (uid, n) (List.mem_cons_self _ _)
      have hrest : ∀ q ∈ rest, q.1 ≠ k := fun q hq => hk q (List.mem_cons_of_mem _ hq)
      have hstep := ih (Check fc uid n).state hrest
      have hfr := check_requests_frame fc uid n k (fun h => h1 h.symm)
      have hfl := check_fields fc uid n
      simp only [runChecks]
      exact ⟨hstep.1.trans hfr, hstep.2.1.trans hfl.1, hstep.2.2.trans hfl.2⟩

/-! ## Lists of timestamps seen through `GoValue` -/

/-- Whether a queue node holds a `time.Time` (the type assertion of
line 49 succeeds). -/
def isTimeValue : GoValue → Bool
  | GoValue.time _ => true
  | GoValue.junk => false

/-- The timestamps of a log, dropping any non-time nodes. -/
def logTimes : List GoValue → List Int :=
  List.filterMap (fun v => match v with
    | GoValue.time t => some t
    | GoValue.junk => none)

theorem logTimes_map_time (ts : List Int) : logTimes (ts.map GoValue.time) = ts := by
  induction ts with
  | nil => rfl
  | cons t rest ih => simp only [logTimes, List.map_cons, List.filterMap_cons] at *; rw [ih]

theorem all_time_map (ts : List Int) : (ts.map GoValue.time).all isTimeValue = true := by
  rw [List.all_eq_true]
  intro v hv
  obtain ⟨x, -, hx⟩ := List.mem_map.mp hv
  rw [← hx]
  rfl

theorem evictTimes_eq_self {now w : Int} {ts : List Int}
    (h : ∀ x ∈ ts, now - x ≤ w) : evictTimes now w ts = ts := by
  cases ts with
  | nil => rfl
  | cons t rest => simp [evictTimes, h t (List.mem_cons_self t rest)]

theorem length_filter_lt_of_mem {p : Int → Bool} {ts : List Int} {x : Int}
    (hx : x ∈ ts) (hpx : p x = false) : (ts.filter p).length < ts.length := by
  rcases Nat.lt_or_ge (ts.filter p).length ts.length with h | h
  · exact h
  · exfalso
    have hle := List.length_filter_le p ts
    have heq : ts.filter p = ts := (List.filter_sublist ts).eq_of_length (le_antisymm hle h)
    have := (List.filter_eq_self.mp heq) x hx
    rw [hpx] at this
    exact Bool.false_ne_true this

/-! ## Rejection on a full window leaves the state untouched -/

theorem check_full_window_step (fc : FloodControlImpl) (uid now : Int) (ts : List Int)
    (hts : fc.requests uid = some (ts.map GoValue.time))
    (hin : ∀ x ∈ ts, now - x ≤ fc.timeInterval)
    (hfull : fc.maxRequests ≤ (ts.length : Int)) :
    (Check fc uid now).admitted = false ∧
    (Check fc uid now).err = some CheckError.limitExceeded ∧
    (Check fc uid now).state = fc := by
  have hlog : (fc.requests uid).getD [] = ts.map GoValue.time := by rw [hts]; rfl
  rw [check_eq fc uid now ts hlog, evictTimes_eq_self hin, if_pos hfull]
  refine ⟨rfl, rfl, ?_⟩
  have hreq : storeBack fc.requests uid (ts.map GoValue.time) = fc.requests := by
    funext k
    unfold storeBack
    by_cases hk : k = uid
    · subst hk
      rw [if_pos rfl, hts]
      rfl
    · rw [if_neg hk]
  show ({ fc with requests := storeBack fc.requests uid (ts.map GoValue.time) }
      : FloodControlImpl) = fc
  rw [hreq]

theorem runChecks_full (fc : FloodControlImpl) (uid : Int) (ts : List Int) (ns : List Int)
    (hts : fc.requests uid = some (ts.map GoValue.time))
    (hfull : fc.maxRequests ≤ (ts.length : Int))
    (hin : ∀ n ∈ ns, ∀ x ∈ ts, n - x ≤ fc.timeInterval) :
    (runChecks fc (ns.map fun n => (uid, n))).2 = fc ∧
    (runChecks fc (ns.map fun n => (uid, n))).1 = List.replicate ns.length false := by
  induction ns with
  | nil => exact ⟨rfl, rfl⟩
  | cons n rest ih =>
      have hstep := check_full_window_step fc uid n ts hts
        (hin n (List.mem_cons_self _ _)) hfull
      have hrest := ih (fun m hm x hx => hin m (List.mem_cons_of_mem _ hm) x hx)
      simp only [List.map_cons, runChecks, hstep.2.2, hstep.1]
      exact ⟨hrest.1, by rw [hrest.2]; rfl⟩

/-- Case analysis on the outcome of an arbitrary `Check` call (no typing
assumption about the stored log): either the call rejects, or it admits,
the post-eviction log is strictly below capacity, and the current instant
is appended under the key. -/
theorem check_cases (fc : FloodControlImpl) (uid now : Int) :
    (Check fc uid now).admitted = false ∨
    ((Check fc uid now).admitted = true ∧
      ¬ fc.maxRequests
        ≤ (((evictFront now fc.timeInterval ((fc.requests uid).getD [])).2).length : Int) ∧
      (Check fc uid now).state.requests uid
        = some ((evictFront now fc.timeInterval ((fc.requests uid).getD [])).2
          ++ [GoValue.time now])) := by
  simp only [Check]
  split
  · left
    rfl
  · split
    · left
      rfl
    · right
      refine ⟨rfl, by assumption, ?_⟩
      show (if uid = uid then _ else _) = _
      rw [if_pos rfl]

/-! ## The claims -/

/-- C1: for every key and state, a `Check` call returns `admitted = false`
exactly when the key's log, after evicting stale entries, has length at
least `limit`; otherwise it appends `now` to the back of the log, stores
the log under the key, and returns `admitted = true` with no error.
(The hypothesis exhibits the key's log as a list of timestamps, covering
an absent key via `ts = []`.) -/
theorem check_admission_iff (fc : FloodControlImpl) (uid now : Int) (ts : List Int)
    (hlog : (fc.requests uid).getD [] = ts.map GoValue.time) :
    ((Check fc uid now).admitted = false ↔
      fc.maxRequests ≤ ((evictTimes now fc.timeInterval ts).length : Int)) ∧
    (((evictTimes now fc.timeInterval ts).length : Int) < fc.maxRequests →
      (Check fc uid now).admitted = true ∧
      (Check fc uid now).err = none ∧
      (Check fc uid now).state.requests uid
        = some ((evictTimes now fc.timeInterval ts).map GoValue.time
            ++ [GoValue.time now])) := by
  rw [check_eq fc uid now ts hlog]
  by_cases hfull : fc.maxRequests ≤ ((evictTimes now fc.timeInterval ts).length : Int)
  · rw [if_pos hfull]
    refine ⟨by simp [hfull], fun h => absurd hfull (not_le.mpr h)⟩
  · rw [if_neg hfull]
    refine ⟨by simp [hfull], fun h => ⟨rfl, rfl, ?_⟩⟩
    show (if uid = uid then _ else _) = _
    rw [if_pos rfl]

/-- C1 witness: a first call at instant 0 on a fresh limiter
(window 10, limit 1) is admitted and recorded. -/
theorem check_admission_iff_witness :
    (((Check (NewFloodControl 10 1) 7 0).admitted = false ↔
      (NewFloodControl 10 1).maxRequests
        ≤ ((evictTimes 0 (NewFloodControl 10 1).timeInterval []).length : Int)) ∧
    (((evictTimes 0 (NewFloodControl 10 1).timeInterval []).length : Int)
        < (NewFloodControl 10 1).maxRequests →
      (Check (NewFloodControl 10 1) 7 0).admitted = true ∧
      (Check (NewFloodControl 10 1) 7 0).err = none ∧
      (Check (NewFloodControl 10 1) 7 0).state.requests 7
        = some ((evictTimes 0 (NewFloodControl 10 1).timeInterval []).map GoValue.time
            ++ [GoValue.time 0]))) :=
  check_admission_iff (NewFloodControl 10 1) 7 0 [] (by decide)

/-- C2: on a chronologically non-decreasing log, the eviction loop keeps
an entry `t` exactly when `now - t ≤ window` — the boundary is inclusive,
an entry exactly `window` old is kept — and so evicts `t` exactly when
`now - t > window`. -/
theorem evict_inclusive_boundary (now window : Int) (ts : List Int)
    (hs : List.Sorted (fun a b => a ≤ b) ts) (t : Int) (ht : t ∈ ts) :
    t ∈ evictTimes now window ts ↔ now - t ≤ window := by
  rw [mem_evictTimes hs]
  exact ⟨fun h => h.2, fun h => ⟨ht, h⟩⟩

/-- C2 witness: at `now = 10` with `window = 10`, the entry `0` is exactly
`window` old and is kept. -/
theorem evict_inclusive_boundary_witness :
    (0 : Int) ∈ evictTimes 10 10 [0, 4] ↔ (10 : Int) - 0 ≤ 10 :=
  evict_inclusive_boundary 10 10 [0, 4] (by decide) 0 (by decide)

/-- C3: immediately after any `Check` call that returns
`admitted = true`, the length of that key's stored log is at most `limit`
(stated with the spec's precondition `limit > 0`, which the proof does not
even need). -/
theorem check_capacity_bound (fc : FloodControlImpl) (uid now : Int)
    (hlim : 0 < fc.maxRequests)
    (hadm : (Check fc uid now).admitted = true) (L : List GoValue)
    (hL : (Check fc uid now).state.requests uid = some L) :
    (L.length : Int) ≤ fc.maxRequests := by
  rcases check_cases fc uid now with h | ⟨-, hlen, hreq⟩
  · rw [hadm] at h
    exact absurd h (by simp)
  · rw [hreq, Option.some.injEq] at hL
    rw [← hL]
    simp only [List.length_append, List.length_singleton]
    push_cast
    omega

/-- C3 witness: after the first admitted call the log holds one entry,
at most the capacity 5. -/
theorem check_capacity_bound_witness :
    (([GoValue.time 0] : List GoValue).length : Int)
      ≤ (NewFloodControl 10 5).maxRequests :=
  check_capacity_bound (NewFloodControl 10 5) 1 0 (by decide) (by decide)
    [GoValue.time 0] (by decide)

/-- C7: on a chronologically non-decreasing log, the front-stopping
eviction loop produces exactly the log obtained by removing every stale
entry from the whole log; the second conjunct states the same for the
loop as it runs on the weakly-typed queue. -/
theorem evict_front_eq_evict_all (now window : Int) (ts : List Int)
    (hs : List.Sorted (fun a b => a ≤ b) ts) :
    evictTimes now window ts = evictAllStale now window ts ∧
    (evictFront now window (ts.map GoValue.time)).2
      = (evictAllStale now window ts).map GoValue.time := by
  refine ⟨evictTimes_eq_filter now window hs, ?_⟩
  rw [evictFront_map_time, evictTimes_eq_filter now window hs]

/-- C7 witness: at `now = 12`, `window = 10`, the log `[0, 5, 11]` is
pruned to `[5, 11]` by both eviction procedures. -/
theorem evict_front_eq_evict_all_witness :
    evictTimes 12 10 [0, 5, 11] = evictAllStale 12 10 [0, 5, 11] ∧
    (evictFront 12 10 ([0, 5, 11].map GoValue.time)).2
      = (evictAllStale 12 10 [0, 5, 11]).map GoValue.time :=
  evict_front_eq_evict_all 12 10 [0, 5, 11] (by decide)
example : evictTimes 10 10 [0, 1, 5] = [0, 1, 5] := by decide

/-- C8: in every limiter state reached from `NewFloodControl` by `Check`
calls with non-decreasing clock readings, each stored per-key log is a
list of timestamps in non-decreasing (chronological) order; in particular
every `Check` call preserves this property. -/
theorem log_chronological (window limit : Int) (fc : FloodControlImpl) (t : Int)
    (hreach : ReachableAt window limit fc t) (uid : Int) (L : List GoValue)
    (hL : fc.requests uid = some L) :
    L = (logTimes L).map GoValue.time ∧
    List.Sorted (fun a b => a ≤ b) (logTimes L) := by
  obtain ⟨ts, hts, hsort, -, -⟩ := (reachable_invariant hreach).2.2 uid L hL
  subst hts
  rw [logTimes_map_time]
  exact ⟨rfl, hsort⟩

/-- C8 witness: after admissions at instants 0 and 3, key 1's log is the
chronological `[0, 3]`. -/
theorem log_chronological_witness :
    ([GoValue.time 0, GoValue.time 3] : List GoValue)
        = (logTimes [GoValue.time 0, GoValue.time 3]).map GoValue.time ∧
    List.Sorted (fun a b => a ≤ b) (logTimes [GoValue.time 0, GoValue.time 3]) :=
  log_chronological 10 5 (Check (Check (NewFloodControl 10 5) 1 0).state 1 3).state 3
    (ReachableAt.step 1 3 (ReachableAt.step 1 0 (ReachableAt.init 0) (by decide))
      (by decide))
    1 [GoValue.time 0, GoValue.time 3] (by decide)

/-- C9: in every reachable limiter state, every element of every stored
per-key log is a timestamp, and no `Check` call (on any key, at any
instant) can return the corrupt-entry "not a time in the queue" error. -/
theorem no_corrupt_error (window limit : Int) (fc : FloodControlImpl) (t : Int)
    (hreach : ReachableAt window limit fc t) (uid now uid2 : Int) (L : List GoValue)
    (hL : fc.requests uid2 = some L) :
    L.all isTimeValue = true ∧
    (Check fc uid now).err ≠ some CheckError.notATime := by
  have hinv := reachable_invariant hreach
  obtain ⟨ts2, hts2, -, -, -⟩ := hinv.2.2 uid2 L hL
  obtain ⟨ts, hts, -, -, -⟩ := stateOk_log hinv uid
  refine ⟨by rw [hts2]; exact all_time_map ts2, ?_⟩
  rw [check_eq fc uid now ts hts]
  by_cases hfull : fc.maxRequests ≤ ((evictTimes now fc.timeInterval ts).length : Int)
  · rw [if_pos hfull]
    simp
  · rw [if_neg hfull]
    simp

/-- C9 witness: after one admitted call for key 1, key 1's log holds only
timestamps and a `Check` for (absent) key 2 cannot hit the corrupt-entry
error. -/
theorem no_corrupt_error_witness :
    ([GoValue.time 0] : List GoValue).all isTimeValue = true ∧
    (Check (Check (NewFloodControl 10 1) 1 0).state 2 5).err
      ≠ some CheckError.notATime :=
  no_corrupt_error 10 1 (Check (NewFloodControl 10 1) 1 0).state 0
    (ReachableAt.step 1 0 (ReachableAt.init 0) (by decide))
    2 5 1 [GoValue.time 0] (by decide)

/-- C6: monotonic recovery.  From a reachable state, if a `Check` at
instant `now` is rejected and the stored (post-eviction) log's oldest
entry is `oldest`, then the next `Check` for that key — at any instant
`now2` with `now2 - oldest > window`, after any interleaved calls `ms`
for other keys — is admitted (preconditions: `limit > 0` and
non-decreasing clock readings). -/
theorem check_monotonic_recovery (window limit : Int) (fc : FloodControlImpl)
    (t uid now oldest now2 : Int) (L : List GoValue) (ms : List (Int × Int))
    (hreach : ReachableAt window limit fc t) (hlim : 0 < limit) (hle : t ≤ now)
    (hrej : (Check fc uid now).admitted = false)
    (hL : (Check fc uid now).state.requests uid = some L)
    (hhead : L.head? = some (GoValue.time oldest))
    (hmono : now ≤ now2) (hrec : window < now2 - oldest)
    (hms : ∀ p ∈ ms, p.1 ≠ uid) :
    (Check (runChecks (Check fc uid now).state ms).2 uid now2).admitted = true := by
  have hinv := reachable_invariant hreach
  obtain ⟨hwin, hlimeq, hlogs⟩ := hinv
  obtain ⟨ts, hts, hsort, hbnd, hlen⟩ := stateOk_log ⟨hwin, hlimeq, hlogs⟩ uid
  have hmain := check_eq fc uid now ts hts
  by_cases hfull : fc.maxRequests ≤ ((evictTimes now fc.timeInterval ts).length : Int)
  · rw [hmain, if_pos hfull] at hL
    replace hL : storeBack fc.requests uid
        ((evictTimes now fc.timeInterval ts).map GoValue.time) uid = some L := hL
    rw [storeBack_same] at hL
    cases hfc : fc.requests uid with
    | none =>
        rw [hfc] at hL
        exact absurd hL (by simp)
    | some L0 =>
        rw [hfc] at hL
        simp only [Option.map_some', Option.some.injEq] at hL
        have hLeq : L = (evictTimes now fc.timeInterval ts).map GoValue.time := hL.symm
        have hsub := evictTimes_sublist now fc.timeInterval ts
        have hsort2 : List.Sorted (fun a b => a ≤ b) (evictTimes now fc.timeInterval ts) :=
          List.Pairwise.sublist hsub hsort
        have hlen2 : ((evictTimes now fc.timeInterval ts).length : Int) ≤ limit := by
          have h1 : ((evictTimes now fc.timeInterval ts).length : Int)
              ≤ (ts.length : Int) := by exact_mod_cast hsub.length_le
          have h2 : max limit 0 = limit := max_eq_left (le_of_lt hlim)
          rw [h2] at hlen
          omega
        have hmem : oldest ∈ evictTimes now fc.timeInterval ts := by
          rw [hLeq] at hhead
          cases hcase : evictTimes now fc.timeInterval ts with
          | nil => rw [hcase] at hhead; simp at hhead
          | cons a r =>
              rw [hcase] at hhead
              simp only [List.map_cons, List.head?_cons, Option.some.injEq,
                GoValue.time.injEq] at hhead
              rw [hhead]
              exact List.mem_cons_self _ _
        have hframe := runChecks_frame uid ms (Check fc uid now).state hms
        have hfl := check_fields fc uid now
        have hreq2 : (runChecks (Check fc uid now).state ms).2.requests uid = some L := by
          rw [hframe.1, hmain, if_pos hfull]
          show storeBack fc.requests uid _ uid = _
          rw [storeBack_same, hfc]
          simp only [Option.map_some', Option.some.injEq]
          exact hLeq.symm
        have hwin2 : (runChecks (Check fc uid now).state ms).2.timeInterval
            = fc.timeInterval := hframe.2.1.trans hfl.1
        have hlim2 : (runChecks (Check fc uid now).state ms).2.maxRequests
            = fc.maxRequests := hframe.2.2.trans hfl.2
        have hlog2 : ((runChecks (Check fc uid now).state ms).2.requests uid).getD []
            = (evictTimes now fc.timeInterval ts).map GoValue.time := by
          rw [hreq2, hLeq]
          rfl
        rw [check_eq (runChecks (Check fc uid now).state ms).2 uid now2
          (evictTimes now fc.timeInterval ts) hlog2]
        have hnotfull : ¬ (runChecks (Check fc uid now).state ms).2.maxRequests
            ≤ ((evictTimes now2
                ((runChecks (Check fc uid now).state ms).2.timeInterval)
                (evictTimes now fc.timeInterval ts)).length : Int) := by
          rw [hwin2, hlim2]
          rw [evictTimes_eq_filter now2 fc.timeInterval hsort2]
          have hpx : decide (now2 - oldest ≤ fc.timeInterval) = false := by
            simp only [decide_eq_false_iff_not]
            rw [hwin]
            omega
          have hlt := length_filter_lt_of_mem
            (p := fun x => decide (now2 - x ≤ fc.timeInterval)) hmem hpx
          have hlt2 : ((evictAllStale now2 fc.timeInterval
              (evictTimes now fc.timeInterval ts)).length : Int)
              < ((evictTimes now fc.timeInterval ts).length : Int) := by
            exact_mod_cast hlt
          rw [hlimeq]
          omega
        rw [if_neg hnotfull]
  · rw [hmain, if_neg hfull] at hrej
    exact absurd hrej (by simp)

/-- C6 witness: window 10, limit 1, key 1 admitted at 0 and rejected at 5
with stored log `[0]`; with no interleaved calls, the next `Check` at
instant 11 (more than the window past the oldest entry 0) is admitted. -/
theorem check_monotonic_recovery_witness :
    (Check (runChecks (Check (Check (NewFloodControl 10 1) 1 0).state 1 5).state []).2
        1 11).admitted = true :=
  check_monotonic_recovery 10 1 (Check (NewFloodControl 10 1) 1 0).state
    0 1 5 0 11 [GoValue.time 0] []
    (ReachableAt.step 1 0 (ReachableAt.init 0) (by decide))
    (by decide) (by decide) (by decide) (by decide) (by decide) (by decide)
    (by decide) (by decide)

/-- C4: for distinct keys `a ≠ b`, a `Check(a)` call leaves the log stored
under `b` unchanged, and a subsequent `Check(b)` (at any instant `now2`)
returns the same boolean, the same error, and stores the same log under
`b` as it would have had `Check(a)` not occurred. -/
theorem check_key_independence (fc : FloodControlImpl) (a b now now2 : Int)
    (hab : a ≠ b) :
    (Check fc a now).state.requests b = fc.requests b ∧
    (Check (Check fc a now).state b now2).admitted = (Check fc b now2).admitted ∧
    (Check (Check fc a now).state b now2).err = (Check fc b now2).err ∧
    (Check (Check fc a now).state b now2).state.requests b
      = (Check fc b now2).state.requests b := by
  have hframe : (Check fc a now).state.requests b = fc.requests b :=
    check_requests_frame fc a now b (fun h => hab h.symm)
  have hf := check_fields fc a now
  have h1 := check_localize (Check fc a now).state b now2
  have h2 := check_localize fc b now2
  rw [hframe, hf.1, hf.2] at h1
  exact ⟨hframe, h1.1.trans h2.1.symm, h1.2.1.trans h2.2.1.symm,
    h1.2.2.trans h2.2.2.symm⟩

/-- C4 witness: with window 10 and limit 1, a call for key 1 at instant 0
does not disturb key 2, whose own call at instant 0 behaves as on the
fresh limiter. -/
theorem check_key_independence_witness :
    (Check (NewFloodControl 10 1) 1 0).state.requests 2
      = (NewFloodControl 10 1).requests 2 ∧
    (Check (Check (NewFloodControl 10 1) 1 0).state 2 0).admitted
      = (Check (NewFloodControl 10 1) 2 0).admitted ∧
    (Check (Check (NewFloodControl 10 1) 1 0).state 2 0).err
      = (Check (NewFloodControl 10 1) 2 0).err ∧
    (Check (Check (NewFloodControl 10 1) 1 0).state 2 0).state.requests 2
      = (Check (NewFloodControl 10 1) 2 0).state.requests 2 :=
  check_key_independence (NewFloodControl 10 1) 1 2 0 0 (by decide)

/-- C5: on rejection the current instant is not appended, yet the
evictions done by the rejected call persist in the stored log (first
conjunct); and repeated `Check` calls at instants `ns` on a key whose log
is full and entirely within the window keep rejecting and leave the state
exactly as it was (second conjunct). -/
theorem check_rejection_no_append (fc : FloodControlImpl) (uid now : Int)
    (ts : List Int) (ns : List Int)
    (hts : fc.requests uid = some (ts.map GoValue.time))
    (hfull : fc.maxRequests ≤ ((evictTimes now fc.timeInterval ts).length : Int))
    (hin : ∀ n ∈ ns, ∀ x ∈ ts, n - x ≤ fc.timeInterval) :
    ((Check fc uid now).admitted = false ∧
     (Check fc uid now).err = some CheckError.limitExceeded ∧
     (Check fc uid now).state.requests uid
       = some ((evictTimes now fc.timeInterval ts).map GoValue.time)) ∧
    ((runChecks fc (ns.map fun n => (uid, n))).2 = fc ∧
     (runChecks fc (ns.map fun n => (uid, n))).1 = List.replicate ns.length false) := by
  have hlog : (fc.requests uid).getD [] = ts.map GoValue.time := by rw [hts]; rfl
  constructor
  · rw [check_eq fc uid now ts hlog, if_pos hfull]
    refine ⟨rfl, rfl, ?_⟩
    show storeBack fc.requests uid _ uid = _
    rw [storeBack_same, hts]
    rfl
  · have hlen : fc.maxRequests ≤ (ts.length : Int) := by
      have := (evictTimes_sublist now fc.timeInterval ts).length_le
      have hcast : ((evictTimes now fc.timeInterval ts).length : Int) ≤ (ts.length : Int) := by
        exact_mod_cast this
      omega
    exact runChecks_full fc uid ts ns hts hlen hin

/-- C5 witness: key 1's log `[0, 1]` fills a limit-2 window; a call at
instant 5 is rejected with nothing evicted and nothing appended, and the
calls at instants 6 and 7 keep rejecting without changing the state. -/
theorem check_rejection_no_append_witness :
    (((Check (Check (Check (NewFloodControl 10 2) 1 0).state 1 1).state 1 5).admitted
        = false ∧
      (Check (Check (Check (NewFloodControl 10 2) 1 0).state 1 1).state 1 5).err
        = some CheckError.limitExceeded ∧
      (Check (Check (Check (NewFloodControl 10 2) 1 0).state 1 1).state 1 5).state.requests 1
        = some ((evictTimes 5 (Check (Check (NewFloodControl 10 2) 1 0).state
            1 1).state.timeInterval [0, 1]).map GoValue.time)) ∧
    ((runChecks (Check (Check (NewFloodControl 10 2) 1 0).state 1 1).state
        ([6, 7].map fun n => (1, n))).2
      = (Check (Check (NewFloodControl 10 2) 1 0).state 1 1).state ∧
     (runChecks (Check (Check (NewFloodControl 10 2) 1 0).state 1 1).state
        ([6, 7].map fun n => (1, n))).1
      = List.replicate ([6, 7] : List Int).length false)) :=
  check_rejection_no_append
    (Check (Check (NewFloodControl 10 2) 1 0).state 1 1).state 1 5 [0, 1] [6, 7]
    (by decide) (by decide) (by decide)

/-- C10: a `Check` call for a key absent from the mapping behaves as for
an empty log: with `limit ≥ 1` it is admitted with no error, the key is
then bound to the one-element log `[now]`, other keys are untouched, and
any limiter holding an empty log for the key (same window and limit)
produces the identical outcome. -/
theorem check_fresh_key (fc : FloodControlImpl) (uid now k : Int)
    (fc0 : FloodControlImpl)
    (habs : fc.requests uid = none) (hlim : 1 ≤ fc.maxRequests) (hk : k ≠ uid)
    (h0req : fc0.requests uid = some []) (h0win : fc0.timeInterval = fc.timeInterval)
    (h0lim : fc0.maxRequests = fc.maxRequests) :
    (Check fc uid now).admitted = true ∧
    (Check fc uid now).err = none ∧
    (Check fc uid now).state.requests uid = some [GoValue.time now] ∧
    (Check fc uid now).state.requests k = fc.requests k ∧
    ((Check fc0 uid now).admitted = (Check fc uid now).admitted ∧
     (Check fc0 uid now).err = (Check fc uid now).err ∧
     (Check fc0 uid now).state.requests uid = (Check fc uid now).state.requests uid) := by
  have hnotfull : ¬ fc.maxRequests
      ≤ ((evictTimes now fc.timeInterval ([] : List Int)).length : Int) := by
    simp only [evictTimes, List.length_nil]
    omega
  have hmain := check_eq fc uid now [] (by rw [habs]; rfl)
  rw [if_neg hnotfull] at hmain
  have h0notfull : ¬ fc0.maxRequests
      ≤ ((evictTimes now fc0.timeInterval ([] : List Int)).length : Int) := by
    simp only [evictTimes, List.length_nil]
    omega
  have h0main := check_eq fc0 uid now [] (by rw [h0req]; rfl)
  rw [if_neg h0notfull] at h0main
  rw [hmain, h0main]
  refine ⟨rfl, rfl, ?_, ?_, rfl, rfl, ?_⟩
  · show (if uid = uid then _ else _) = _
    rw [if_pos rfl]
    rfl
  · show (if k = uid then _ else _) = _
    rw [if_neg hk]
  · show (if uid = uid then _ else _) = (if uid = uid then _ else _)
    rw [if_pos rfl, if_pos rfl]
    rfl

/-- C10 witness: key 3 has never been checked on the fresh limiter
(window 10, limit 2); its first call at instant 4 is admitted, records
`[4]`, leaves key 1 alone, and matches a limiter where key 3 holds an
explicit empty log. -/
theorem check_fresh_key_witness :
    (Check (NewFloodControl 10 2) 3 4).admitted = true ∧
    (Check (NewFloodControl 10 2) 3 4).err = none ∧
    (Check (NewFloodControl 10 2) 3 4).state.requests 3 = some [GoValue.time 4] ∧
    (Check (NewFloodControl 10 2) 3 4).state.requests 1
      = (NewFloodControl 10 2).requests 1 ∧
    ((Check { requests := (fun j => if j = 3 then some [] else none),
                timeInterval := 10, maxRequests := 2 } 3 4).admitted
        = (Check (NewFloodControl 10 2) 3 4).admitted ∧
     (Check { requests := (fun j => if j = 3 then some [] else none),
                timeInterval := 10, maxRequests := 2 } 3 4).err
        = (Check (NewFloodControl 10 2) 3 4).err ∧
     (Check { requests := (fun j => if j = 3 then some [] else none),
                timeInterval := 10, maxRequests := 2 } 3 4).state.requests 3
        = (Check (NewFloodControl 10 2) 3 4).state.requests 3) :=
  check_fresh_key (NewFloodControl 10 2) 3 4 1
    { requests := (fun j => if j = 3 then some [] else none),
      timeInterval := 10, maxRequests := 2 }
    (by decide) (by decide) (by decide) (by decide) (by decide) (by decide)
example : (Check (NewFloodControl 10 1) 1 0).admitted = true := by decide
example : (Check (Check (NewFloodControl 10 1) 1 0).state 1 5).admitted = false := by decide
example :
    (Check (Check (Check (NewFloodControl 10 1) 1 0).state 1 5).state 1 11).admitted
      = true := by decide
example :
    ((Check (NewFloodControl 10 1) 1 0).state.requests 1) = some [GoValue.time 0] := by decide
